import Mathlib

/-!
A verification development for `src/main.py`, a content-aware image
crop-and-resize tool.  The pure algorithmic core is embedded shallowly:
Python float arithmetic on sizes, ratios and offsets is modelled exactly
over `ℚ`, the entropy/contrast score over `ℝ`, `int(...)` as truncation
toward zero, and the PIL/numpy primitives by their documented behaviour
(argument validation of `Image.crop` / `Image.resize`, `np.linspace`,
`np.histogram(..., density=True)`, `ndarray.std()`).
-/

/-- Python `int(...)` applied to a rational: truncation toward zero. -/
def pyInt (q : ℚ) : ℤ := if 0 ≤ q then ⌊q⌋ else -⌊-q⌋

/-- Line 37, `target_ratio = target_w / target_h` (real-valued division,
Python name `target_ratio`). -/
def targetRat (tw th : ℤ) : ℚ := (tw : ℚ) / (th : ℚ)

/-- Line 38, `src_ratio = src_w / src_h` (Python name `src_ratio`). -/
def srcRat (sw sh : ℕ) : ℚ := (sw : ℚ) / (sh : ℚ)

/-- Lines 40-45: the crop rectangle size `(crop_w, crop_h)`. -/
def cropSize (sw sh : ℕ) (tw th : ℤ) : ℤ × ℤ :=
  if srcRat sw sh > targetRat tw th then
    (pyInt ((sh : ℚ) * targetRat tw th), (sh : ℤ))
  else
    ((sw : ℤ), pyInt ((sw : ℚ) / targetRat tw th))

/-- `np.linspace(0, stop, num=num, dtype=int)`: `num` evenly spaced points
from `0` to `stop` inclusive, truncated to integers; with `num ≤ 1` the
single point (if any) is the start, `0`. -/
def linspaceInt (stop num : ℕ) : List ℕ :=
  if num ≤ 1 then List.replicate num 0
  else (List.range num).map fun i => i * stop / (num - 1)

/-- Lines 56 / 68: the number of candidates, `min(25, max_offset + 1)`. -/
def numCandidates (maxOffset : ℕ) : ℕ := min 25 (maxOffset + 1)

/-- Lines 56 / 68: the candidate offsets
`np.linspace(0, max_offset, num=min(25, max_offset + 1), dtype=int)`. -/
def searchOffsets (maxOffset : ℕ) : List ℕ :=
  linspaceInt maxOffset (numCandidates maxOffset)

/-- One step of the tracking loop of lines 62-64 / 74-76: a strictly greater
score replaces the incumbent, an equal or smaller one is discarded. -/
def bestStep {α : Type} [LinearOrder α] (f : ℕ → α) (b : ℕ × WithBot α) (x : ℕ) :
    ℕ × WithBot α :=
  if b.2 < ((f x : α) : WithBot α) then (x, ((f x : α) : WithBot α)) else b

/-- The search loop of lines 57-64 / 69-76: start from `best = 0` and
`best_score = float("-inf")` (modelled as `⊥`), scan the candidates in order. -/
def bestOffset {α : Type} [LinearOrder α] (f : ℕ → α) (offs : List ℕ) : ℕ :=
  (offs.foldl (bestStep f) (0, (⊥ : WithBot α))).1

/-- Specification-side selector: the candidate with the maximum score, ties
resolved in favour of the first (lowest-offset) candidate encountered. -/
def firstArgmax {α : Type} [LinearOrder α] (f : ℕ → α) : List ℕ → Option ℕ
  | [] => none
  | x :: xs =>
    match firstArgmax f xs with
    | none => some x
    | some y => if f y ≤ f x then some x else some y

/-- Histogram bin of luminance value `v`: `np.histogram(_, bins=32, range=(0, 255))`
uses 32 equal bins of width `255/32`, left-closed, with the last bin also
right-closed, so an in-range `v` falls in bin `min 31 ⌊v * 32 / 255⌋`. -/
def binOf (v : ℕ) : ℕ := min 31 (v * 32 / 255)

/-- Count of the in-range values of `vals` that fall in bin `i`. -/
def binCount (vals : List ℕ) (i : ℕ) : ℕ :=
  vals.countP fun v => decide (v ≤ 255) && decide (binOf v = i)

/-- Total count of in-range values; `density=True` normalizes by this total. -/
def inRange (vals : List ℕ) : ℕ := vals.countP fun v => decide (v ≤ 255)

/-- A `density=True` histogram value (line 26): `count / (total * binwidth)`,
with bin width `255/32`; the densities integrate to 1 over `[0, 255]`. -/
noncomputable def binDensity (vals : List ℕ) (i : ℕ) : ℝ :=
  (binCount vals i : ℝ) / ((inRange vals : ℝ) * (255 / 32))

/-- Lines 26-28: `hist = hist[hist > 0]; entropy = -np.sum(hist * np.log2(hist))`.
A bin survives the `hist > 0` filter exactly when its count is positive. -/
noncomputable def entropyOf (vals : List ℕ) : ℝ :=
  -(∑ i ∈ Finset.range 32,
      if 0 < binCount vals i then binDensity vals i * Real.logb 2 (binDensity vals i)
      else 0)

/-- Mean of the region values (as reals). -/
noncomputable def meanOf (vals : List ℕ) : ℝ :=
  (vals.map fun (v : ℕ) => (v : ℝ)).sum / vals.length

/-- Line 29, `gray_arr.std()`: the population standard deviation. -/
noncomputable def stdOf (vals : List ℕ) : ℝ :=
  Real.sqrt ((vals.map fun (v : ℕ) => ((v : ℝ) - meanOf vals) ^ 2).sum / vals.length)

/-- Lines 24-30, `_score_crop`: entropy plus `0.01 ×` contrast. -/
noncomputable def score_crop (vals : List ℕ) : ℝ :=
  entropyOf vals + 0.01 * stdOf vals

/-- The decoded source image: its dimensions and the luminance grid
`np.array(rgb_img.convert("L"))` (value at row `r`, column `c`). -/
structure GrayImage where
  w : ℕ
  h : ℕ
  gray : ℕ → ℕ → ℕ

/-- A crop rectangle `(left, upper, right, lower)` in source coordinates. -/
structure CropBox where
  left : ℤ
  top : ℤ
  right : ℤ
  bottom : ℤ
  deriving DecidableEq

/-- The value returned by `smart_crop_resize`: the pixels of source region
`box` resampled (Lanczos) to exactly `outW × outH`. -/
structure ResizeOutput where
  box : CropBox
  outW : ℤ
  outH : ℤ
  deriving DecidableEq

/-- `PIL.Image.crop` argument validation: it raises `ValueError` when
`right < left` or `lower < upper`, and otherwise extracts the box. -/
def pilCrop (b : CropBox) : Except String CropBox :=
  if b.right < b.left then .error "ValueError: Coordinate right is less than left"
  else if b.bottom < b.top then .error "ValueError: Coordinate lower is less than upper"
  else .ok b

/-- `PIL.Image.resize((tw, th), LANCZOS)`: raises `ValueError` for a
non-positive output size, otherwise resamples the image to `tw × th`. -/
def pilResize (b : CropBox) (tw th : ℤ) : Except String ResizeOutput :=
  if tw < 1 ∨ th < 1 then .error "ValueError: height and width must be > 0"
  else .ok ⟨b, tw, th⟩

/-- Line 60: the luminance values of the numpy slice `gray[:, x : x + cw]` —
every row, columns `x ≤ c < min (x + cw) w`.  A stop at or below the start
yields the empty slice (the wrap-around of a negative stop index is not
modelled; on every path whose result is inspected, `0 ≤ cw`). -/
def regionX (img : GrayImage) (x : ℕ) (cw : ℤ) : List ℕ :=
  (List.range img.h).flatMap fun r =>
    (List.range (min ((x : ℤ) + cw) (img.w : ℤ) - (x : ℤ)).toNat).map fun c =>
      img.gray r (x + c)

/-- Line 72: the luminance values of the numpy slice `gray[y : y + ch, :]`. -/
def regionY (img : GrayImage) (y : ℕ) (ch : ℤ) : List ℕ :=
  (List.range (min ((y : ℤ) + ch) (img.h : ℤ) - (y : ℤ)).toNat).flatMap fun r =>
    (List.range img.w).map fun c => img.gray (y + r) c

/-- Lines 55-64: `best_x`, the winning offset of the x-axis search — the
candidates span `[0, max_offset]` with `max_offset = src_w - crop_w`, each is
scored on `gray[:, x : x + crop_w]`, the first maximal score wins. -/
noncomputable def xBest (img : GrayImage) (tw th : ℤ) : ℕ :=
  bestOffset (fun x => score_crop (regionX img x (cropSize img.w img.h tw th).1))
    (searchOffsets ((img.w : ℤ) - (cropSize img.w img.h tw th).1).toNat)

/-- Lines 67-76: `best_y`, the winning offset of the y-axis search. -/
noncomputable def yBest (img : GrayImage) (tw th : ℤ) : ℕ :=
  bestOffset (fun y => score_crop (regionY img y (cropSize img.w img.h tw th).2))
    (searchOffsets ((img.h : ℤ) - (cropSize img.w img.h tw th).2).toNat)

/-- Lines 33-79, `smart_crop_resize`.  The three divisions that can raise
`ZeroDivisionError` are modelled as errors: line 37 when `target_h = 0`,
line 38 when the source height is `0`, and line 45 when the else-branch is
taken with `target_ratio = 0`.  `crop` / `resize` argument validation
follows `pilCrop` / `pilResize`. -/
noncomputable def smart_crop_resize (img : GrayImage) (tw th : ℤ) :
    Except String ResizeOutput :=
  if th = 0 then .error "ZeroDivisionError: division by zero"
  else if img.h = 0 then .error "ZeroDivisionError: division by zero"
  else if ¬ srcRat img.w img.h > targetRat tw th ∧ targetRat tw th = 0 then
    .error "ZeroDivisionError: float division by zero"
  else if (cropSize img.w img.h tw th).1 = (img.w : ℤ) ∧
      (cropSize img.w img.h tw th).2 = (img.h : ℤ) then
    pilResize ⟨0, 0, (img.w : ℤ), (img.h : ℤ)⟩ tw th
  else if srcRat img.w img.h > targetRat tw th then
    (pilCrop ⟨(xBest img tw th : ℤ), 0,
        (xBest img tw th : ℤ) + (cropSize img.w img.h tw th).1,
        (cropSize img.w img.h tw th).2⟩).bind
      fun b => pilResize b tw th
  else
    (pilCrop ⟨0, (yBest img tw th : ℤ), (cropSize img.w img.h tw th).1,
        (yBest img tw th : ℤ) + (cropSize img.w img.h tw th).2⟩).bind
      fun b => pilResize b tw th

/-- Whether a PIL call returned an image rather than raising. -/
def resultOk : Except String ResizeOutput → Bool
  | .ok _ => true
  | .error _ => false

/-- The result the spec demands on the fast path: the full source image
resampled directly to the target size. -/
def directResample (img : GrayImage) (tw th : ℤ) : ResizeOutput :=
  ⟨⟨0, 0, (img.w : ℤ), (img.h : ℤ)⟩, tw, th⟩

/-- ZIP compression method; `build_zip` always uses `ZIP_DEFLATED`. -/
inductive Compression where
  | stored
  | deflated
  deriving DecidableEq

/-- PNG encoding is lossless: the byte stream is determined by (and
determines) the encoded image, so it is modelled by the image itself. -/
structure PngEncoded (Img : Type) where
  image : Img

/-- A ZIP archive: a compression method plus named entries in order. -/
structure ZipArchive (Img : Type) where
  compression : Compression
  entries : List (String × PngEncoded Img)

/-- Lines 82-90, `build_zip`: one `<lowercased label>.png` entry per result,
in the iteration order of the mapping (Python dicts iterate in insertion
order), DEFLATE compression. -/
def build_zip {Img : Type} (images : List (String × Img)) : ZipArchive Img :=
  ⟨Compression.deflated, images.map fun li => (li.1.toLower ++ ".png", ⟨li.2⟩)⟩

/-- Specification-side entropy (§4.1 of the spec): `-Σ p_i log2 p_i` summed
over the strictly positive bins only. -/
noncomputable def specEntropy (vals : List ℕ) : ℝ :=
  -(∑ i ∈ (Finset.range 32).filter (fun i => 0 < binCount vals i),
      binDensity vals i * Real.logb 2 (binDensity vals i))

/-- Specification-side score: entropy over positive bins plus `0.01 σ`. -/
noncomputable def specScore (vals : List ℕ) : ℝ :=
  specEntropy vals + 0.01 * stdOf vals

/-! ## Helper lemmas -/

theorem pyInt_eq_floor {q : ℚ} (h : 0 ≤ q) : pyInt q = ⌊q⌋ :=
  if_pos h

theorem targetRat_pos {tw th : ℤ} (htw : 0 < tw) (hth : 0 < th) :
    0 < targetRat tw th :=
  div_pos (by exact_mod_cast htw) (by exact_mod_cast hth)

theorem scr_err_th0 (img : GrayImage) (tw th : ℤ) (h : th = 0) :
    smart_crop_resize img tw th = .error "ZeroDivisionError: division by zero" := by
  rw [smart_crop_resize, if_pos h]

theorem scr_err_h0 (img : GrayImage) (tw th : ℤ) (hth : th ≠ 0) (h : img.h = 0) :
    smart_crop_resize img tw th = .error "ZeroDivisionError: division by zero" := by
  rw [smart_crop_resize, if_neg hth, if_pos h]

theorem scr_err_tr0 (img : GrayImage) (tw th : ℤ) (hth : th ≠ 0) (hh : img.h ≠ 0)
    (hns : ¬ srcRat img.w img.h > targetRat tw th) (htr : targetRat tw th = 0) :
    smart_crop_resize img tw th = .error "ZeroDivisionError: float division by zero" := by
  rw [smart_crop_resize, if_neg hth, if_neg hh, if_pos ⟨hns, htr⟩]

theorem scr_fast (img : GrayImage) (tw th : ℤ) (hth : th ≠ 0) (hh : img.h ≠ 0)
    (hg : ¬ (¬ srcRat img.w img.h > targetRat tw th ∧ targetRat tw th = 0))
    (hfast : (cropSize img.w img.h tw th).1 = (img.w : ℤ) ∧
      (cropSize img.w img.h tw th).2 = (img.h : ℤ)) :
    smart_crop_resize img tw th = pilResize ⟨0, 0, (img.w : ℤ), (img.h : ℤ)⟩ tw th := by
  rw [smart_crop_resize, if_neg hth, if_neg hh, if_neg hg, if_pos hfast]

theorem scr_x (img : GrayImage) (tw th : ℤ) (hth : th ≠ 0) (hh : img.h ≠ 0)
    (hx : srcRat img.w img.h > targetRat tw th)
    (hnf : ¬ ((cropSize img.w img.h tw th).1 = (img.w : ℤ) ∧
      (cropSize img.w img.h tw th).2 = (img.h : ℤ))) :
    smart_crop_resize img tw th =
      (pilCrop ⟨(xBest img tw th : ℤ), 0,
          (xBest img tw th : ℤ) + (cropSize img.w img.h tw th).1,
          (cropSize img.w img.h tw th).2⟩).bind
        fun b => pilResize b tw th := by
  rw [smart_crop_resize, if_neg hth, if_neg hh, if_neg (fun hc => hc.1 hx), if_neg hnf,
    if_pos hx]

theorem scr_y (img : GrayImage) (tw th : ℤ) (hth : th ≠ 0) (hh : img.h ≠ 0)
    (hny : ¬ srcRat img.w img.h > targetRat tw th) (htr : targetRat tw th ≠ 0)
    (hnf : ¬ ((cropSize img.w img.h tw th).1 = (img.w : ℤ) ∧
      (cropSize img.w img.h tw th).2 = (img.h : ℤ))) :
    smart_crop_resize img tw th =
      (pilCrop ⟨0, (yBest img tw th : ℤ), (cropSize img.w img.h tw th).1,
          (yBest img tw th : ℤ) + (cropSize img.w img.h tw th).2⟩).bind
        fun b => pilResize b tw th := by
  rw [smart_crop_resize, if_neg hth, if_neg hh, if_neg (fun hc => htr hc.2), if_neg hnf,
    if_neg hny]

/-! ## Claim theorems -/

/-- C1: for positive source dimensions and positive targetW, targetH, the crop
size is `(floor(srcH * targetRatio), srcH)` when `srcRatio > targetRatio` and
`(srcW, floor(srcW / targetRatio))` otherwise, with `targetRatio = targetW/targetH`
and `srcRatio = srcW/srcH` real-valued divisions (here the truncating `int(...)`
conversion agrees with `floor` because its arguments are non-negative). -/
theorem crop_size_matches_spec_formula (sw sh : ℕ) (tw th : ℤ)
    (hsw : 0 < sw) (hsh : 0 < sh) (htw : 0 < tw) (hth : 0 < th) :
    cropSize sw sh tw th =
      if (sw : ℚ) / (sh : ℚ) > (tw : ℚ) / (th : ℚ) then
        (⌊(sh : ℚ) * ((tw : ℚ) / (th : ℚ))⌋, (sh : ℤ))
      else
        ((sw : ℤ), ⌊(sw : ℚ) / ((tw : ℚ) / (th : ℚ))⌋) := by
  have htr : 0 ≤ (tw : ℚ) / (th : ℚ) := le_of_lt (targetRat_pos htw hth)
  rw [cropSize, srcRat, targetRat]
  by_cases hc : (sw : ℚ) / (sh : ℚ) > (tw : ℚ) / (th : ℚ)
  · rw [if_pos hc, if_pos hc, pyInt_eq_floor (mul_nonneg (Nat.cast_nonneg sh) htr)]
  · rw [if_neg hc, if_neg hc, pyInt_eq_floor (div_nonneg (Nat.cast_nonneg sw) htr)]

/-- Witness for C1 at source 2000×1000, target 1080×1080. -/
theorem crop_size_matches_spec_formula_witness :
    0 < 2000 ∧ 0 < 1000 ∧ 0 < (1080 : ℤ) ∧ 0 < (1080 : ℤ) ∧
    cropSize 2000 1000 1080 1080 =
      (if ((2000 : ℕ) : ℚ) / ((1000 : ℕ) : ℚ) > ((1080 : ℤ) : ℚ) / ((1080 : ℤ) : ℚ) then
        (⌊((1000 : ℕ) : ℚ) * (((1080 : ℤ) : ℚ) / ((1080 : ℤ) : ℚ))⌋, ((1000 : ℕ) : ℤ))
      else
        (((2000 : ℕ) : ℤ), ⌊((2000 : ℕ) : ℚ) / (((1080 : ℤ) : ℚ) / ((1080 : ℤ) : ℚ))⌋)) :=
  ⟨by decide, by decide, by decide, by decide,
    crop_size_matches_spec_formula 2000 1000 1080 1080 (by decide) (by decide)
      (by decide) (by decide)⟩

/-- C2: when the computed crop size equals the full source size, the function
takes the fast path and the result is the full source image resampled
directly to `(targetW, targetH)`. -/
theorem fast_path_direct_resample (img : GrayImage) (tw th : ℤ)
    (hh : 0 < img.h) (htw : 0 < tw) (hth : 0 < th)
    (hfast : cropSize img.w img.h tw th = ((img.w : ℤ), (img.h : ℤ))) :
    smart_crop_resize img tw th = .ok (directResample img tw th) := by
  have hg : ¬ (¬ srcRat img.w img.h > targetRat tw th ∧ targetRat tw th = 0) :=
    fun hc => absurd hc.2 (ne_of_gt (targetRat_pos htw hth))
  rw [scr_fast img tw th (ne_of_gt hth) (Nat.pos_iff_ne_zero.mp hh) hg
    ⟨by rw [hfast], by rw [hfast]⟩, pilResize, if_neg (by omega), directResample]

/-- Witness for C2: a 2×1 source with target 2×1 has matching ratios. -/
theorem fast_path_direct_resample_witness :
    0 < (GrayImage.mk 2 1 fun _ _ => 0).h ∧ 0 < (2 : ℤ) ∧ 0 < (1 : ℤ) ∧
    cropSize (GrayImage.mk 2 1 fun _ _ => 0).w (GrayImage.mk 2 1 fun _ _ => 0).h 2 1 =
      (((GrayImage.mk 2 1 fun _ _ => 0).w : ℤ), ((GrayImage.mk 2 1 fun _ _ => 0).h : ℤ)) ∧
    smart_crop_resize (GrayImage.mk 2 1 fun _ _ => 0) 2 1 =
      .ok (directResample (GrayImage.mk 2 1 fun _ _ => 0) 2 1) := by
  have hfast : cropSize 2 1 2 1 = ((2 : ℤ), (1 : ℤ)) := by
    norm_num [cropSize, srcRat, targetRat, pyInt]
  exact ⟨by decide, by decide, by decide, hfast,
    fast_path_direct_resample (GrayImage.mk 2 1 fun _ _ => 0) 2 1 (by decide) (by decide)
      (by decide) hfast⟩

theorem firstArgmax_cons_none {α : Type} [LinearOrder α] {f : ℕ → α} {x : ℕ} {xs : List ℕ}
    (hxs : firstArgmax f xs = none) : firstArgmax f (x :: xs) = some x := by
  unfold firstArgmax
  rw [hxs]

theorem firstArgmax_cons_some {α : Type} [LinearOrder α] {f : ℕ → α} {x y : ℕ} {xs : List ℕ}
    (hxs : firstArgmax f xs = some y) :
    firstArgmax f (x :: xs) = if f y ≤ f x then some x else some y := by
  unfold firstArgmax
  rw [hxs]

theorem le_firstArgmax {α : Type} [LinearOrder α] (f : ℕ → α) {x m : ℕ} {xs : List ℕ}
    (h : firstArgmax f (x :: xs) = some m) : f x ≤ f m := by
  cases hxs : firstArgmax f xs with
  | none =>
    rw [firstArgmax_cons_none hxs] at h
    obtain rfl : x = m := by injection h
    exact le_refl _
  | some y =>
    rw [firstArgmax_cons_some hxs] at h
    split_ifs at h with hyx
    · obtain rfl : x = m := by injection h
      exact le_refl _
    · obtain rfl : y = m := by injection h
      exact le_of_not_le hyx

theorem firstArgmax_mem {α : Type} [LinearOrder α] (f : ℕ → α) :
    ∀ {l : List ℕ} {m : ℕ}, firstArgmax f l = some m → m ∈ l := by
  intro l
  induction l with
  | nil => intro m h; exact absurd h (by unfold firstArgmax; simp)
  | cons x xs ih =>
    intro m h
    cases hxs : firstArgmax f xs with
    | none =>
      rw [firstArgmax_cons_none hxs] at h
      obtain rfl : x = m := by injection h
      exact List.mem_cons_self _ _
    | some y =>
      rw [firstArgmax_cons_some hxs] at h
      split_ifs at h
      · obtain rfl : x = m := by injection h
        exact List.mem_cons_self _ _
      · obtain rfl : y = m := by injection h
        exact List.mem_cons_of_mem _ (ih hxs)

theorem foldl_bestStep_spec {α : Type} [LinearOrder α] (f : ℕ → α) :
    ∀ (xs : List ℕ) (b : ℕ), ∃ m, firstArgmax f (b :: xs) = some m ∧
      xs.foldl (bestStep f) (b, ((f b : α) : WithBot α)) = (m, ((f m : α) : WithBot α)) := by
  intro xs
  induction xs with
  | nil =>
    intro b
    refine ⟨b, ?_, rfl⟩
    exact firstArgmax_cons_none rfl
  | cons x xs ih =>
    intro b
    rw [List.foldl_cons]
    by_cases hbx : f b < f x
    · have hstep : bestStep f (b, ((f b : α) : WithBot α)) x = (x, ((f x : α) : WithBot α)) := by
        simp [bestStep, WithBot.coe_lt_coe, hbx]
      obtain ⟨m, hm, hf⟩ := ih x
      have hxm : f x ≤ f m := le_firstArgmax f hm
      refine ⟨m, ?_, by rw [hstep, hf]⟩
      rw [firstArgmax_cons_some hm, if_neg (not_le.mpr (lt_of_lt_of_le hbx hxm))]
    · have hstep : bestStep f (b, ((f b : α) : WithBot α)) x = (b, ((f b : α) : WithBot α)) := by
        simp [bestStep, WithBot.coe_lt_coe, hbx]
      obtain ⟨m, hm, hf⟩ := ih b
      refine ⟨m, ?_, by rw [hstep, hf]⟩
      have hxb : f x ≤ f b := le_of_not_lt hbx
      cases hxs : firstArgmax f xs with
      | none =>
        rw [firstArgmax_cons_none hxs] at hm
        obtain rfl : b = m := by injection hm
        rw [firstArgmax_cons_some (firstArgmax_cons_none hxs), if_pos hxb]
      | some y =>
        rw [firstArgmax_cons_some hxs] at hm
        by_cases hyx : f y ≤ f x
        · have h1 : firstArgmax f (x :: xs) = some x := by
            rw [firstArgmax_cons_some hxs, if_pos hyx]
          have hyb : f y ≤ f b := le_trans hyx hxb
          rw [if_pos hyb] at hm
          rw [firstArgmax_cons_some h1, if_pos hxb, hm]
        · have h1 : firstArgmax f (x :: xs) = some y := by
            rw [firstArgmax_cons_some hxs, if_neg hyx]
          rw [firstArgmax_cons_some h1]
          by_cases hyb : f y ≤ f b
          · rw [if_pos hyb] at hm
            rw [if_pos hyb, hm]
          · rw [if_neg hyb] at hm
            rw [if_neg hyb, hm]

theorem bestOffset_spec {α : Type} [LinearOrder α] (f : ℕ → α) (l : List ℕ) (h : l ≠ []) :
    firstArgmax f l = some (bestOffset f l) := by
  cases l with
  | nil => exact absurd rfl h
  | cons x xs =>
    obtain ⟨m, hm, hf⟩ := foldl_bestStep_spec f xs x
    have hinit : bestStep f (0, (⊥ : WithBot α)) x = (x, ((f x : α) : WithBot α)) := by
      simp [bestStep, WithBot.bot_lt_coe]
    rw [bestOffset, List.foldl_cons, hinit, hf, hm]

theorem bestOffset_mem {α : Type} [LinearOrder α] (f : ℕ → α) (l : List ℕ) (h : l ≠ []) :
    bestOffset f l ∈ l :=
  firstArgmax_mem f (bestOffset_spec f l h)

theorem numCandidates_pos (M : ℕ) : 0 < numCandidates M :=
  lt_min (by norm_num) (Nat.succ_pos M)

theorem searchOffsets_ne_nil (M : ℕ) : searchOffsets M ≠ [] := by
  have hn := numCandidates_pos M
  rw [searchOffsets, linspaceInt]
  split_ifs with h1
  · simp only [ne_eq, List.replicate_eq_nil_iff]
    omega
  · simp only [ne_eq, List.map_eq_nil_iff, List.range_eq_nil]
    omega

theorem searchOffsets_le (M : ℕ) : ∀ x ∈ searchOffsets M, x ≤ M := by
  intro x hx
  rw [searchOffsets, linspaceInt] at hx
  split_ifs at hx with h1
  · rw [List.eq_of_mem_replicate hx]
    exact Nat.zero_le M
  · obtain ⟨i, hi, rfl⟩ := List.mem_map.mp hx
    have hd : 0 < numCandidates M - 1 := by omega
    calc i * M / (numCandidates M - 1)
        ≤ (numCandidates M - 1) * M / (numCandidates M - 1) := by
          exact Nat.div_le_div_right
            (Nat.mul_le_mul_right M (by have := List.mem_range.mp hi; omega))
      _ = M := Nat.mul_div_cancel_left M hd

/-- C4: the search loop of `smart_crop_resize` (the fold `bestOffset`, whose
replacement test is the strict `score > best_score` of lines 62-64 / 74-76)
selects, for every real-valued score function and non-empty candidate list,
exactly the maximum-scoring candidate, keeping on ties the first
(lowest-offset) one encountered — the reference selector `firstArgmax`; in
particular the winning offsets `best_x` / `best_y` whose regions are cropped
and resampled are the first argmax of `score_crop` over the candidate
offsets. -/
theorem search_selects_first_maximum (f : ℕ → ℝ) (l : List ℕ) (hl : l ≠ [])
    (img : GrayImage) (tw th : ℤ) :
    some (bestOffset f l) = firstArgmax f l ∧
    some (xBest img tw th) = firstArgmax
      (fun x => score_crop (regionX img x (cropSize img.w img.h tw th).1))
      (searchOffsets ((img.w : ℤ) - (cropSize img.w img.h tw th).1).toNat) ∧
    some (yBest img tw th) = firstArgmax
      (fun y => score_crop (regionY img y (cropSize img.w img.h tw th).2))
      (searchOffsets ((img.h : ℤ) - (cropSize img.w img.h tw th).2).toNat) :=
  ⟨(bestOffset_spec f l hl).symm,
    (bestOffset_spec _ _ (searchOffsets_ne_nil _)).symm,
    (bestOffset_spec _ _ (searchOffsets_ne_nil _)).symm⟩

/-- Witness for C4 on a two-candidate tie: both scores equal, offset 0 wins. -/
theorem search_selects_first_maximum_witness :
    ([0, 1] : List ℕ) ≠ [] ∧
    some (bestOffset (fun _ => (0 : ℝ)) [0, 1]) = firstArgmax (fun _ => (0 : ℝ)) [0, 1] :=
  ⟨by simp,
    (search_selects_first_maximum (fun _ => (0 : ℝ)) [0, 1] (by simp)
      (GrayImage.mk 1 1 fun _ _ => 0) 1 1).1⟩

/-- C3: on the search path (`cropDim < srcDim` along the reduction axis, so
`maxOffset = srcDim - cropDim ≥ 1`), the candidate list has exactly
`min 25 (maxOffset + 1)` offsets, starts at `0`, ends at `maxOffset`, is
strictly increasing, and when `maxOffset + 1 < 25` it is exactly
`0, 1, ..., maxOffset`. -/
theorem search_offsets_candidates (srcDim cropDim : ℕ) (hlt : cropDim < srcDim) :
    (searchOffsets (srcDim - cropDim)).length = min 25 (srcDim - cropDim + 1) ∧
    (searchOffsets (srcDim - cropDim)).head? = some 0 ∧
    (searchOffsets (srcDim - cropDim)).getLast? = some (srcDim - cropDim) ∧
    (srcDim - cropDim + 1 < 25 →
      searchOffsets (srcDim - cropDim) = List.range (srcDim - cropDim + 1)) ∧
    (searchOffsets (srcDim - cropDim)).Pairwise (· < ·) := by
  set M := srcDim - cropDim with hMdef
  have hM : 0 < M := by omega
  have hn2 : 2 ≤ numCandidates M := le_min (by norm_num) (by omega)
  have heq : searchOffsets M =
      (List.range (numCandidates M)).map fun i => i * M / (numCandidates M - 1) := by
    rw [searchOffsets, linspaceInt, if_neg (by omega)]
  have hd : 0 < numCandidates M - 1 := by omega
  have hdM : numCandidates M - 1 ≤ M := by
    have : numCandidates M ≤ M + 1 := min_le_right _ _
    omega
  refine ⟨?_, ?_, ?_, ?_, ?_⟩
  · rw [heq, List.length_map, List.length_range, numCandidates]
  · obtain ⟨k, hk⟩ : ∃ k, numCandidates M = k + 1 := ⟨numCandidates M - 1, by omega⟩
    rw [heq, hk, List.range_succ_eq_map]
    simp
  · obtain ⟨k, hk⟩ : ∃ k, numCandidates M = k + 1 := ⟨numCandidates M - 1, by omega⟩
    have hk1 : 0 < k := by omega
    rw [heq, hk, List.range_succ, List.map_append, List.map_cons, List.map_nil,
      List.getLast?_concat]
    have : k * M / (k + 1 - 1) = M := by
      have : k + 1 - 1 = k := rfl
      rw [this, Nat.mul_div_cancel_left M hk1]
    rw [this]
  · intro hsm
    have hn : numCandidates M = M + 1 := by rw [numCandidates]; omega
    rw [heq, hn]
    calc (List.range (M + 1)).map (fun i => i * M / (M + 1 - 1))
        = (List.range (M + 1)).map id := by
          apply List.map_congr_left
          intro i _
          have h1 : M + 1 - 1 = M := rfl
          rw [h1, id_eq, Nat.mul_div_cancel _ hM]
      _ = List.range (M + 1) := List.map_id _
  · rw [heq]
    refine List.Pairwise.map _ ?_ (List.pairwise_lt_range _)
    intro a b hab
    have h1 : a * M / (numCandidates M - 1) + 1 ≤ (a * M + M) / (numCandidates M - 1) := by
      rw [Nat.le_div_iff_mul_le hd]
      calc (a * M / (numCandidates M - 1) + 1) * (numCandidates M - 1)
          = a * M / (numCandidates M - 1) * (numCandidates M - 1) + (numCandidates M - 1) := by
            ring
        _ ≤ a * M + (numCandidates M - 1) :=
            Nat.add_le_add_right (Nat.div_mul_le_self _ _) _
        _ ≤ a * M + M := Nat.add_le_add_left hdM _
    have h2 : (a * M + M) / (numCandidates M - 1) ≤ b * M / (numCandidates M - 1) := by
      apply Nat.div_le_div_right
      calc a * M + M = (a + 1) * M := by ring
        _ ≤ b * M := Nat.mul_le_mul_right M (by omega)
    omega

/-- Witness for C3 at `srcDim = 10`, `cropDim = 7` (so `maxOffset = 3`). -/
theorem search_offsets_candidates_witness :
    7 < 10 ∧
    (searchOffsets 3).length = min 25 4 ∧
    (searchOffsets 3).head? = some 0 ∧
    (searchOffsets 3).getLast? = some 3 ∧
    searchOffsets 3 = List.range 4 ∧
    (searchOffsets 3).Pairwise (· < ·) := by
  have h := search_offsets_candidates 10 7 (by decide)
  exact ⟨by decide, h.1, h.2.1, h.2.2.1, h.2.2.2.1 (by decide), h.2.2.2.2⟩

theorem pilResize_ok {b : CropBox} {tw th : ℤ} {out : ResizeOutput}
    (h : pilResize b tw th = Except.ok out) :
    1 ≤ tw ∧ 1 ≤ th ∧ out = ⟨b, tw, th⟩ := by
  rw [pilResize] at h
  split_ifs at h with h1
  push_neg at h1
  refine ⟨by omega, by omega, ?_⟩
  injection h with h
  exact h.symm

theorem cropBind_ok {box : CropBox} {tw th : ℤ} {out : ResizeOutput}
    (h : (pilCrop box).bind (fun b => pilResize b tw th) = Except.ok out) :
    out = ⟨box, tw, th⟩ ∧ 1 ≤ tw ∧ 1 ≤ th := by
  rw [pilCrop] at h
  split_ifs at h with h1 h2
  · exact absurd h (by simp [Except.bind])
  · exact absurd h (by simp [Except.bind])
  · have h' : pilResize box tw th = Except.ok out := h
    obtain ⟨ha, hb, hc⟩ := pilResize_ok h'
    exact ⟨hc, ha, hb⟩

theorem cropSize_x {sw sh : ℕ} {tw th : ℤ} (hx : srcRat sw sh > targetRat tw th) :
    cropSize sw sh tw th = (pyInt ((sh : ℚ) * targetRat tw th), (sh : ℤ)) := by
  rw [cropSize, if_pos hx]

theorem cropSize_y {sw sh : ℕ} {tw th : ℤ} (hny : ¬ srcRat sw sh > targetRat tw th) :
    cropSize sw sh tw th = ((sw : ℤ), pyInt ((sw : ℚ) / targetRat tw th)) := by
  rw [cropSize, if_neg hny]

theorem cropW_bounds_x {sw sh : ℕ} {tw th : ℤ} (hsh : 0 < sh)
    (htr : 0 < targetRat tw th) (hx : srcRat sw sh > targetRat tw th) :
    0 ≤ (cropSize sw sh tw th).1 ∧ (cropSize sw sh tw th).1 < (sw : ℤ) := by
  have harg : (0 : ℚ) ≤ (sh : ℚ) * targetRat tw th :=
    mul_nonneg (Nat.cast_nonneg _) htr.le
  have hcw : (cropSize sw sh tw th).1 = ⌊(sh : ℚ) * targetRat tw th⌋ := by
    rw [cropSize_x hx]
    exact pyInt_eq_floor harg
  have hshq : (0 : ℚ) < (sh : ℚ) := by exact_mod_cast hsh
  have hlt : (sh : ℚ) * targetRat tw th < ((sw : ℤ) : ℚ) := by
    have h2 : targetRat tw th * (sh : ℚ) < (sw : ℚ) := by
      have := (lt_div_iff₀ hshq).mp hx
      linarith
    push_cast
    linarith [mul_comm (sh : ℚ) (targetRat tw th)]
  exact ⟨hcw ▸ Int.floor_nonneg.mpr harg, hcw ▸ Int.floor_lt.mpr hlt⟩

theorem cropH_bounds_y {sw sh : ℕ} {tw th : ℤ} (hsh : 0 < sh)
    (htr : 0 < targetRat tw th) (hny : ¬ srcRat sw sh > targetRat tw th) :
    0 ≤ (cropSize sw sh tw th).2 ∧ (cropSize sw sh tw th).2 ≤ (sh : ℤ) := by
  have harg : (0 : ℚ) ≤ (sw : ℚ) / targetRat tw th :=
    div_nonneg (Nat.cast_nonneg _) htr.le
  have hch : (cropSize sw sh tw th).2 = ⌊(sw : ℚ) / targetRat tw th⌋ := by
    rw [cropSize_y hny]
    exact pyInt_eq_floor harg
  have hle : (sw : ℚ) / targetRat tw th ≤ (sh : ℚ) := by
    rw [div_le_iff₀ htr]
    have hshq : (0 : ℚ) < (sh : ℚ) := by exact_mod_cast hsh
    have hsr : (sw : ℚ) / (sh : ℚ) ≤ targetRat tw th := le_of_not_lt hny
    have := (div_le_iff₀ hshq).mp hsr
    linarith [mul_comm (sh : ℚ) (targetRat tw th)]
  refine ⟨hch ▸ Int.floor_nonneg.mpr harg, ?_⟩
  rw [hch]
  calc ⌊(sw : ℚ) / targetRat tw th⌋ ≤ ⌊((sh : ℕ) : ℚ)⌋ := Int.floor_le_floor hle
    _ = (sh : ℤ) := Int.floor_natCast sh

/-- C7: for every input image and positive target size, whenever
`smart_crop_resize` returns an image, the crop window it selected (the full
source on the fast path, the winning candidate on the search path) is fully
contained in the source: `0 ≤ x`, `0 ≤ y`, `x + cropW ≤ srcW`,
`y + cropH ≤ srcH`. -/
theorem crop_window_within_source (img : GrayImage) (tw th : ℤ) (out : ResizeOutput)
    (htw : 1 ≤ tw) (hth : 1 ≤ th)
    (hok : smart_crop_resize img tw th = Except.ok out) :
    0 ≤ out.box.left ∧ 0 ≤ out.box.top ∧
    out.box.right ≤ (img.w : ℤ) ∧ out.box.bottom ≤ (img.h : ℤ) := by
  by_cases hth0 : th = 0
  · rw [scr_err_th0 img tw th hth0] at hok
    exact absurd hok (by simp)
  by_cases hh0 : img.h = 0
  · rw [scr_err_h0 img tw th hth0 hh0] at hok
    exact absurd hok (by simp)
  have hhpos : 0 < img.h := Nat.pos_of_ne_zero hh0
  have htr : 0 < targetRat tw th := targetRat_pos (by omega) (by omega)
  by_cases hfast : (cropSize img.w img.h tw th).1 = (img.w : ℤ) ∧
      (cropSize img.w img.h tw th).2 = (img.h : ℤ)
  · rw [scr_fast img tw th hth0 hh0 (fun hc => absurd hc.2 (ne_of_gt htr)) hfast] at hok
    obtain ⟨-, -, rfl⟩ := pilResize_ok hok
    exact ⟨le_refl 0, le_refl 0, le_refl _, le_refl _⟩
  by_cases hx : srcRat img.w img.h > targetRat tw th
  · rw [scr_x img tw th hth0 hh0 hx hfast] at hok
    obtain ⟨rfl, -, -⟩ := cropBind_ok hok
    obtain ⟨hcw0, hcwlt⟩ := cropW_bounds_x hhpos htr hx
    have hxb : xBest img tw th ≤ ((img.w : ℤ) - (cropSize img.w img.h tw th).1).toNat :=
      searchOffsets_le _ _ (bestOffset_mem _ _ (searchOffsets_ne_nil _))
    have hxbz : (xBest img tw th : ℤ) ≤ (img.w : ℤ) - (cropSize img.w img.h tw th).1 := by
      have := Int.toNat_of_nonneg (by omega :
        (0 : ℤ) ≤ (img.w : ℤ) - (cropSize img.w img.h tw th).1)
      omega
    have hch : (cropSize img.w img.h tw th).2 = (img.h : ℤ) := by
      rw [cropSize_x hx]
    refine ⟨Int.natCast_nonneg _, le_refl 0, ?_, ?_⟩
    · show (xBest img tw th : ℤ) + (cropSize img.w img.h tw th).1 ≤ (img.w : ℤ)
      omega
    · show (cropSize img.w img.h tw th).2 ≤ (img.h : ℤ)
      rw [hch]
  · rw [scr_y img tw th hth0 hh0 hx (ne_of_gt htr) hfast] at hok
    obtain ⟨rfl, -, -⟩ := cropBind_ok hok
    obtain ⟨hch0, hchle⟩ := cropH_bounds_y hhpos htr hx
    have hyb : yBest img tw th ≤ ((img.h : ℤ) - (cropSize img.w img.h tw th).2).toNat :=
      searchOffsets_le _ _ (bestOffset_mem _ _ (searchOffsets_ne_nil _))
    have hybz : (yBest img tw th : ℤ) ≤ (img.h : ℤ) - (cropSize img.w img.h tw th).2 := by
      have := Int.toNat_of_nonneg (by omega :
        (0 : ℤ) ≤ (img.h : ℤ) - (cropSize img.w img.h tw th).2)
      omega
    have hcw : (cropSize img.w img.h tw th).1 = (img.w : ℤ) := by
      rw [cropSize_y hx]
    refine ⟨le_refl 0, Int.natCast_nonneg _, ?_, ?_⟩
    · show (cropSize img.w img.h tw th).1 ≤ (img.w : ℤ)
      rw [hcw]
    · show (yBest img tw th : ℤ) + (cropSize img.w img.h tw th).2 ≤ (img.h : ℤ)
      omega

/-- Witness for C7: on the fast path of a 2×1 source at target 2×1, the
selected window is the full source. -/
theorem crop_window_within_source_witness :
    1 ≤ (2 : ℤ) ∧ 1 ≤ (1 : ℤ) ∧
    smart_crop_resize (GrayImage.mk 2 1 fun _ _ => 0) 2 1 =
      Except.ok (ResizeOutput.mk (CropBox.mk 0 0 2 1) 2 1) ∧
    (0 ≤ (ResizeOutput.mk (CropBox.mk 0 0 2 1) 2 1).box.left ∧
     0 ≤ (ResizeOutput.mk (CropBox.mk 0 0 2 1) 2 1).box.top ∧
     (ResizeOutput.mk (CropBox.mk 0 0 2 1) 2 1).box.right ≤
       ((GrayImage.mk 2 1 fun _ _ => 0).w : ℤ) ∧
     (ResizeOutput.mk (CropBox.mk 0 0 2 1) 2 1).box.bottom ≤
       ((GrayImage.mk 2 1 fun _ _ => 0).h : ℤ)) := by
  have hok : smart_crop_resize (GrayImage.mk 2 1 fun _ _ => 0) 2 1 =
      Except.ok (ResizeOutput.mk (CropBox.mk 0 0 2 1) 2 1) := by
    rw [scr_fast (GrayImage.mk 2 1 fun _ _ => 0) 2 1 (by decide) (by decide)
      (by norm_num [targetRat, srcRat])
      (by constructor <;> norm_num [cropSize, srcRat, targetRat, pyInt])]
    rw [pilResize, if_neg (by omega)]
    rfl
  exact ⟨by decide, by decide, hok,
    crop_window_within_source (GrayImage.mk 2 1 fun _ _ => 0) 2 1
      (ResizeOutput.mk (CropBox.mk 0 0 2 1) 2 1) (by decide) (by decide) hok⟩

/-- C8 amended: a non-positive target size never yields a result — when
`targetH = 0` the call fails immediately with `ZeroDivisionError` (line 37),
and otherwise the `ValueError` of `crop`/`resize` argument validation is
raised after the candidate search; there is no explicit fast-fail
validation in `smart_crop_resize` itself. -/
theorem nonpositive_target_errors (img : GrayImage) (tw th : ℤ)
    (h : tw ≤ 0 ∨ th ≤ 0) :
    (∀ out, smart_crop_resize img tw th ≠ Except.ok out) ∧
    (th = 0 → smart_crop_resize img tw th = .error "ZeroDivisionError: division by zero") := by
  refine ⟨?_, fun hth0 => scr_err_th0 img tw th hth0⟩
  intro out hok
  by_cases hth0 : th = 0
  · rw [scr_err_th0 img tw th hth0] at hok
    exact absurd hok (by simp)
  by_cases hh0 : img.h = 0
  · rw [scr_err_h0 img tw th hth0 hh0] at hok
    exact absurd hok (by simp)
  by_cases hx : srcRat img.w img.h > targetRat tw th
  · by_cases hfast : (cropSize img.w img.h tw th).1 = (img.w : ℤ) ∧
        (cropSize img.w img.h tw th).2 = (img.h : ℤ)
    · rw [scr_fast img tw th hth0 hh0 (fun hc => hc.1 hx) hfast] at hok
      obtain ⟨h1, h2, -⟩ := pilResize_ok hok
      omega
    · rw [scr_x img tw th hth0 hh0 hx hfast] at hok
      obtain ⟨-, h1, h2⟩ := cropBind_ok hok
      omega
  · by_cases htr0 : targetRat tw th = 0
    · rw [scr_err_tr0 img tw th hth0 hh0 hx htr0] at hok
      exact absurd hok (by simp)
    by_cases hfast : (cropSize img.w img.h tw th).1 = (img.w : ℤ) ∧
        (cropSize img.w img.h tw th).2 = (img.h : ℤ)
    · rw [scr_fast img tw th hth0 hh0 (fun hc => htr0 hc.2) hfast] at hok
      obtain ⟨h1, h2, -⟩ := pilResize_ok hok
      omega
    · rw [scr_y img tw th hth0 hh0 hx htr0 hfast] at hok
      obtain ⟨-, h1, h2⟩ := cropBind_ok hok
      omega

/-- Witness for the amended C8 at `targetW = 0`, `targetH = 5`. -/
theorem nonpositive_target_errors_witness :
    ((0 : ℤ) ≤ 0 ∨ (5 : ℤ) ≤ 0) ∧
    (∀ out, smart_crop_resize (GrayImage.mk 2 2 fun _ _ => 0) 0 5 ≠ Except.ok out) ∧
    ((5 : ℤ) = 0 → smart_crop_resize (GrayImage.mk 2 2 fun _ _ => 0) 0 5 =
      .error "ZeroDivisionError: division by zero") :=
  ⟨by decide,
    (nonpositive_target_errors (GrayImage.mk 2 2 fun _ _ => 0) 0 5 (by decide)).1,
    (nonpositive_target_errors (GrayImage.mk 2 2 fun _ _ => 0) 0 5 (by decide)).2⟩

/-- C8 counterexample: a degenerate 1000×1 source with positive target 1×1080
computes a zero-width crop window (`crop_w = 0`), yet `smart_crop_resize` is
not rejected with an invalid-argument error — the search scores 25 empty
slices and the empty region is cropped and resampled to a result. -/
theorem degenerate_crop_not_rejected :
    (cropSize 1000 1 1 1080).1 = 0 ∧
    resultOk (smart_crop_resize (GrayImage.mk 1000 1 fun _ _ => 0) 1 1080) = true := by
  have hcw : (cropSize 1000 1 1 1080).1 = 0 := by
    norm_num [cropSize, srcRat, targetRat, pyInt]
  have hch : (cropSize 1000 1 1 1080).2 = 1 := by
    norm_num [cropSize, srcRat, targetRat, pyInt]
  refine ⟨hcw, ?_⟩
  have hnf : ¬ ((cropSize (GrayImage.mk 1000 1 fun _ _ => 0).w
      (GrayImage.mk 1000 1 fun _ _ => 0).h 1 1080).1 =
        ((GrayImage.mk 1000 1 fun _ _ => 0).w : ℤ) ∧
      (cropSize (GrayImage.mk 1000 1 fun _ _ => 0).w
        (GrayImage.mk 1000 1 fun _ _ => 0).h 1 1080).2 =
        ((GrayImage.mk 1000 1 fun _ _ => 0).h : ℤ)) := by
    intro hc
    have h1 : (cropSize 1000 1 1 1080).1 = ((1000 : ℕ) : ℤ) := hc.1
    rw [hcw] at h1
    exact absurd h1 (by decide)
  rw [scr_x (GrayImage.mk 1000 1 fun _ _ => 0) 1 1080 (by decide) (by decide)
    (by norm_num [srcRat, targetRat]) hnf]
  have h1 : (cropSize (GrayImage.mk 1000 1 fun _ _ => 0).w
      (GrayImage.mk 1000 1 fun _ _ => 0).h 1 1080).1 = 0 := hcw
  have h2 : (cropSize (GrayImage.mk 1000 1 fun _ _ => 0).w
      (GrayImage.mk 1000 1 fun _ _ => 0).h 1 1080).2 = 1 := hch
  rw [h1, h2]
  simp [pilCrop, pilResize, Except.bind, resultOk]

theorem binOf_lt (v : ℕ) : binOf v < 32 :=
  lt_of_le_of_lt (min_le_left _ _) (by norm_num)

theorem countP_replicate (p : ℕ → Bool) (m a : ℕ) :
    (List.replicate m a).countP p = if p a then m else 0 := by
  induction m with
  | zero => simp
  | succ k ih =>
    rw [List.replicate_succ, List.countP_cons, ih]
    split_ifs <;> simp_all

theorem binCount_le_inRange (vals : List ℕ) (i : ℕ) :
    binCount vals i ≤ inRange vals := by
  apply List.countP_mono_left
  intro v _ hv
  simp only [Bool.and_eq_true, decide_eq_true_eq] at hv
  simp [hv.1]

theorem sum_binCount (vals : List ℕ) :
    ∑ i ∈ Finset.range 32, binCount vals i = inRange vals := by
  induction vals with
  | nil => simp [binCount, inRange]
  | cons v vs ih =>
    have hcons : ∀ i, binCount (v :: vs) i =
        binCount vs i + if (decide (v ≤ 255) && decide (binOf v = i)) = true then 1 else 0 :=
      fun i => List.countP_cons _ _ _
    simp only [hcons, Finset.sum_add_distrib, ih]
    by_cases hin : v ≤ 255
    · have : (∑ i ∈ Finset.range 32,
          if (decide (v ≤ 255) && decide (binOf v = i)) = true then 1 else 0) = 1 := by
        rw [Finset.sum_eq_single (binOf v)]
        · simp [hin]
        · intro b _ hb
          simp [Ne.symm hb]
        · intro hb
          exact absurd (Finset.mem_range.mpr (binOf_lt v)) hb
      rw [this]
      simp [inRange, List.countP_cons, hin]
    · have : (∑ i ∈ Finset.range 32,
          if (decide (v ≤ 255) && decide (binOf v = i)) = true then 1 else 0) = 0 := by
        apply Finset.sum_eq_zero
        intro b _
        simp [hin]
      rw [this]
      simp [inRange, List.countP_cons, hin]

theorem binDensity_nonneg (vals : List ℕ) (i : ℕ) : 0 ≤ binDensity vals i := by
  rw [binDensity]
  positivity

theorem binDensity_le (vals : List ℕ) (i : ℕ) : binDensity vals i ≤ 32 / 255 := by
  rw [binDensity]
  rcases Nat.eq_zero_or_pos (inRange vals) with h0 | hpos
  · have : binCount vals i = 0 := le_antisymm (h0 ▸ binCount_le_inRange vals i) (Nat.zero_le _)
    rw [this, h0]
    norm_num
  · have hc : (binCount vals i : ℝ) ≤ (inRange vals : ℝ) := by
      exact_mod_cast binCount_le_inRange vals i
    have hN : (0 : ℝ) < (inRange vals : ℝ) := by exact_mod_cast hpos
    rw [div_le_iff₀ (by positivity)]
    calc (binCount vals i : ℝ) ≤ (inRange vals : ℝ) := hc
      _ = 32 / 255 * ((inRange vals : ℝ) * (255 / 32)) := by ring
      _ ≤ 32 / 255 * ((inRange vals : ℝ) * (255 / 32)) := le_refl _

theorem binDensity_pos {vals : List ℕ} {i : ℕ} (h : 0 < binCount vals i) :
    0 < binDensity vals i := by
  have hN : 0 < inRange vals := lt_of_lt_of_le h (binCount_le_inRange vals i)
  rw [binDensity]
  have h1 : (0 : ℝ) < (binCount vals i : ℝ) := by exact_mod_cast h
  have h2 : (0 : ℝ) < (inRange vals : ℝ) := by exact_mod_cast hN
  positivity

theorem entropy_term_nonpos (vals : List ℕ) (i : ℕ) :
    (if 0 < binCount vals i then binDensity vals i * Real.logb 2 (binDensity vals i)
      else 0) ≤ 0 := by
  split_ifs with h
  · have hd0 : 0 < binDensity vals i := binDensity_pos h
    have hd1 : binDensity vals i ≤ 1 :=
      le_trans (binDensity_le vals i) (by norm_num)
    exact mul_nonpos_of_nonneg_of_nonpos hd0.le
      (Real.logb_nonpos one_lt_two hd0.le hd1)
  · exact le_refl 0

theorem entropy_term_neg {vals : List ℕ} {i : ℕ} (h : 0 < binCount vals i) :
    (if 0 < binCount vals i then binDensity vals i * Real.logb 2 (binDensity vals i)
      else 0) < 0 := by
  rw [if_pos h]
  have hd0 : 0 < binDensity vals i := binDensity_pos h
  have hd1 : binDensity vals i < 1 :=
    lt_of_le_of_lt (binDensity_le vals i) (by norm_num)
  exact mul_neg_of_pos_of_neg hd0 (Real.logb_neg one_lt_two hd0 hd1)

theorem entropyOf_eq_specEntropy (vals : List ℕ) : entropyOf vals = specEntropy vals := by
  rw [entropyOf, specEntropy, Finset.sum_filter]

theorem meanOf_replicate (m c : ℕ) (hm : 0 < m) :
    meanOf (List.replicate m c) = (c : ℝ) := by
  rw [meanOf, List.map_replicate, List.sum_replicate, List.length_replicate,
    nsmul_eq_mul]
  have : ((m : ℝ)) ≠ 0 := by positivity
  field_simp

theorem stdOf_replicate (m c : ℕ) (hm : 0 < m) :
    stdOf (List.replicate m c) = 0 := by
  rw [stdOf]
  have hmap : (List.replicate m c).map
      (fun (v : ℕ) => ((v : ℝ) - meanOf (List.replicate m c)) ^ 2) =
      List.replicate m (((c : ℝ) - meanOf (List.replicate m c)) ^ 2) :=
    List.map_replicate
  rw [hmap, meanOf_replicate m c hm]
  simp

theorem binCount_replicate (m c i : ℕ) (hc : c ≤ 255) :
    binCount (List.replicate m c) i = if binOf c = i then m else 0 := by
  rw [binCount, countP_replicate]
  simp [hc]

theorem inRange_replicate (m c : ℕ) (hc : c ≤ 255) :
    inRange (List.replicate m c) = m := by
  rw [inRange, countP_replicate]
  simp [hc]

theorem uniform_vals_score (n c : ℕ) (hc : c ≤ 255) :
    stdOf (List.replicate (n + 1) c) = 0 ∧
    score_crop (List.replicate (n + 1) c) = 32 / 255 * Real.logb 2 (255 / 32) := by
  have hstd : stdOf (List.replicate (n + 1) c) = 0 := stdOf_replicate _ c n.succ_pos
  refine ⟨hstd, ?_⟩
  have hd : binDensity (List.replicate (n + 1) c) (binOf c) = 32 / 255 := by
    rw [binDensity, binCount_replicate _ c _ hc, if_pos rfl, inRange_replicate _ c hc]
    have hm : ((n : ℝ) + 1) ≠ 0 := by positivity
    push_cast
    rw [div_mul_cancel_left₀ hm]
    norm_num
  have hent : entropyOf (List.replicate (n + 1) c) =
      32 / 255 * Real.logb 2 (255 / 32) := by
    rw [entropyOf, Finset.sum_eq_single (binOf c)]
    · rw [if_pos, hd]
      · have h1 : ((32 : ℝ) / 255) = ((255 : ℝ) / 32)⁻¹ := by norm_num
        rw [h1, Real.logb_inv]
        ring
      · rw [binCount_replicate _ c _ hc, if_pos rfl]
        exact n.succ_pos
    · intro b _ hb
      rw [binCount_replicate _ c _ hc, if_neg (Ne.symm hb)]
      simp
    · intro hb
      exact absurd (Finset.mem_range.mpr (binOf_lt c)) hb
  rw [score_crop, hent, hstd]
  ring

theorem log_256_255_bounds :
    1 / 256 ≤ Real.log ((256 : ℝ) / 255) ∧ Real.log ((256 : ℝ) / 255) ≤ 1 / 255 := by
  constructor
  · have h := Real.log_le_sub_one_of_pos (show (0 : ℝ) < 255 / 256 by norm_num)
    have hinv : Real.log ((256 : ℝ) / 255) = -Real.log ((255 : ℝ) / 256) := by
      rw [show ((256 : ℝ) / 255) = ((255 : ℝ) / 256)⁻¹ by norm_num, Real.log_inv]
    rw [hinv]
    linarith
  · have h := Real.log_le_sub_one_of_pos (show (0 : ℝ) < 256 / 255 by norm_num)
    linarith

theorem logb_255_32 : Real.logb 2 ((255 : ℝ) / 32) =
    (3 * Real.log 2 - Real.log ((256 : ℝ) / 255)) / Real.log 2 := by
  rw [Real.logb]
  congr 1
  have h1 : ((255 : ℝ) / 32) = 2 ^ 3 * (255 / 256) := by norm_num
  rw [h1, Real.log_mul (by norm_num) (by norm_num), Real.log_pow]
  have h2 : Real.log ((255 : ℝ) / 256) = -Real.log ((256 : ℝ) / 255) := by
    rw [show ((255 : ℝ) / 256) = ((256 : ℝ) / 255)⁻¹ by norm_num, Real.log_inv]
  rw [h2]
  push_cast
  ring

theorem uniform_score_bounds :
    0.375 < (32 : ℝ) / 255 * Real.logb 2 (255 / 32) ∧
    (32 : ℝ) / 255 * Real.logb 2 (255 / 32) < 0.376 := by
  obtain ⟨hlb, hub⟩ := log_256_255_bounds
  have h2lb : (0.6931471803 : ℝ) < Real.log 2 := Real.log_two_gt_d9
  have h2ub : Real.log 2 < 0.6931471808 := Real.log_two_lt_d9
  rw [logb_255_32,
    show (32 : ℝ) / 255 * ((3 * Real.log 2 - Real.log ((256 : ℝ) / 255)) / Real.log 2) =
      32 * (3 * Real.log 2 - Real.log ((256 : ℝ) / 255)) / (255 * Real.log 2) by ring]
  constructor
  · rw [lt_div_iff₀ (by nlinarith)]
    nlinarith
  · rw [div_lt_iff₀ (by nlinarith)]
    nlinarith

/-- C5: for every non-empty region, `_score_crop` returns `H + 0.01·σ` where
`H` is the Shannon entropy `-Σ p·log2 p` over the strictly positive bins of
the 32-bin density histogram on `[0, 255]` (zero bins contribute nothing,
so the sum is finite — never NaN or -inf — and non-negative), and `σ` is the
population standard deviation `stdOf`. -/
theorem score_crop_entropy_plus_contrast (vals : List ℕ) (hne : vals ≠ []) :
    score_crop vals = specScore vals ∧ 0 ≤ specEntropy vals := by
  have he := entropyOf_eq_specEntropy vals
  refine ⟨by rw [score_crop, specScore, he], ?_⟩
  rw [← he, entropyOf]
  have hsum : (∑ i ∈ Finset.range 32,
      if 0 < binCount vals i then binDensity vals i * Real.logb 2 (binDensity vals i)
      else 0) ≤ 0 :=
    Finset.sum_nonpos fun i _ => entropy_term_nonpos vals i
  linarith

/-- Witness for C5 at the one-pixel region `[0]`. -/
theorem score_crop_entropy_plus_contrast_witness :
    ([0] : List ℕ) ≠ [] ∧
    (score_crop [0] = specScore [0] ∧ 0 ≤ specEntropy [0]) :=
  ⟨by simp, score_crop_entropy_plus_contrast [0] (by simp)⟩

/-- C6 counterexample: a uniform (single-color) region does not score `0` —
the density histogram puts mass `32/255` (not 1) in its single bin, so the
entropy term is `(32/255)·log2(255/32) ≈ 0.376 ≠ 0`. -/
theorem uniform_region_score_ne_zero : score_crop (List.replicate 4 0) ≠ 0 := by
  have h := (uniform_vals_score 3 0 (by norm_num)).2
  rw [h]
  exact ne_of_gt (mul_pos (by norm_num) (Real.logb_pos one_lt_two (by norm_num)))

/-- C6 amended: a uniform single-color region yields `σ = 0` as claimed, but
its score is not `0`: it is exactly `(32/255)·log2(255/32)` (≈ 0.376) and
strictly positive, because the `density=True` histogram normalizes bin values
to integrate to 1 over `[0, 255]`, so the single occupied bin has density
`32/255`, not probability 1. -/
theorem uniform_region_score_value (n c : ℕ) (hc : c ≤ 255) :
    stdOf (List.replicate (n + 1) c) = 0 ∧
    score_crop (List.replicate (n + 1) c) = 32 / 255 * Real.logb 2 (255 / 32) ∧
    0 < score_crop (List.replicate (n + 1) c) := by
  obtain ⟨h1, h2⟩ := uniform_vals_score n c hc
  exact ⟨h1, h2, by
    rw [h2]
    exact mul_pos (by norm_num) (Real.logb_pos one_lt_two (by norm_num))⟩

/-- Witness for the amended C6 at the one-pixel region of value 5. -/
theorem uniform_region_score_value_witness :
    (5 : ℕ) ≤ 255 ∧
    (stdOf (List.replicate 1 5) = 0 ∧
     score_crop (List.replicate 1 5) = 32 / 255 * Real.logb 2 (255 / 32) ∧
     0 < score_crop (List.replicate 1 5)) :=
  ⟨by norm_num, uniform_region_score_value 0 5 (by norm_num)⟩

/-- C10: for every non-empty in-range region the score is strictly positive
(each occupied bin has density at most `32/255 < 1`, so each occupied bin
contributes a strictly positive entropy term), and in particular the uniform
single-color region scores `≈ 0.376` (strictly between 0.375 and 0.376),
not 0. -/
theorem score_crop_positive (vals : List ℕ) (hne : vals ≠ [])
    (hr : ∀ v ∈ vals, v ≤ 255) :
    0 < score_crop vals ∧
    (∀ i : ℕ, 0 < binCount vals i → binDensity vals i ≤ 32 / 255) ∧
    0.375 < score_crop (List.replicate 1 0) ∧
    score_crop (List.replicate 1 0) < 0.376 := by
  have hub := uniform_score_bounds
  have hu := (uniform_vals_score 0 0 (by norm_num)).2
  refine ⟨?_, fun i _ => binDensity_le vals i,
    by rw [hu]; exact hub.1, by rw [hu]; exact hub.2⟩
  obtain ⟨v0, vs, rfl⟩ := List.exists_cons_of_ne_nil hne
  have hb : 0 < binCount (v0 :: vs) (binOf v0) := by
    rw [binCount]
    refine List.countP_pos_iff.mpr ⟨v0, List.mem_cons_self _ _, ?_⟩
    simp [hr v0 (List.mem_cons_self _ _)]
  have hsum : (∑ i ∈ Finset.range 32, if 0 < binCount (v0 :: vs) i then
      binDensity (v0 :: vs) i * Real.logb 2 (binDensity (v0 :: vs) i) else 0) < 0 := by
    have hlt := Finset.sum_lt_sum (fun i _ => entropy_term_nonpos (v0 :: vs) i)
      ⟨binOf v0, Finset.mem_range.mpr (binOf_lt v0), entropy_term_neg hb⟩
    rwa [Finset.sum_const_zero] at hlt
  have hstd : 0 ≤ stdOf (v0 :: vs) := Real.sqrt_nonneg _
  rw [score_crop, entropyOf]
  linarith

/-- Witness for C10 at the one-pixel region `[7]`. -/
theorem score_crop_positive_witness :
    ([7] : List ℕ) ≠ [] ∧ (∀ v ∈ ([7] : List ℕ), v ≤ 255) ∧
    (0 < score_crop [7] ∧
     (∀ i : ℕ, 0 < binCount [7] i → binDensity [7] i ≤ 32 / 255) ∧
     0.375 < score_crop (List.replicate 1 0) ∧
     score_crop (List.replicate 1 0) < 0.376) :=
  ⟨by simp, by decide, score_crop_positive [7] (by simp) (by decide)⟩

/-- C9: `build_zip` produces a DEFLATE-compressed ZIP with exactly one entry
per result, named `<lowercased label>.png`, holding the PNG encoding of the
corresponding image, in the iteration order of the mapping. -/
theorem build_zip_entries_spec {Img : Type} (images : List (String × Img)) :
    (build_zip images).compression = Compression.deflated ∧
    (build_zip images).entries.length = images.length ∧
    ∀ i : ℕ, (build_zip images).entries[i]? =
      (images[i]?).map fun li => (li.1.toLower ++ ".png", PngEncoded.mk li.2) := by
  refine ⟨rfl, by simp [build_zip], fun i => ?_⟩
  simp [build_zip]
